import Mathlib

/-!
Verification of the Wait-Wizard scheduling core (src/algorithms.js).

The JavaScript source is shallowly embedded: numbers that are only ever
integers (priorities, epoch milliseconds) become Int, fractional JS
arithmetic (token counts, wait times in minutes, similarity scores)
becomes Rat, JS undefined and null become Option.none, and the
JS array sort with a numeric comparator becomes a stable insertion
sort by the corresponding key.  Every definition follows the statement
structure of the corresponding JS function.
-/

set_option autoImplicit false

/-- Ticket record as used by the queue, the assignment engine and the
analytics engine.  Timestamps are epoch milliseconds; an absent field
(JS undefined) is None.  A falsy-but-present JS timestamp string does
not occur, so presence of a timestamp is modelled as isSome. -/
structure Ticket where
  id : Nat
  priority : Int
  status : Nat := 0
  createdAt : Option Int := none
  completedAt : Option Int := none
deriving DecidableEq, Repr

/-- Statuses are the three strings Open / Booked / Completed of the source,
encoded as 0 / 1 / 2 in the Ticket.status field. -/
def statusOpen : Nat := 0

def statusBooked : Nat := 1

def statusCompleted : Nat := 2

/-- Doctor roster entry: the specialties text may be absent (JS undefined),
which the source replaces by the empty string. -/
structure Doctor where
  id : Nat
  specialties : Option String := none
deriving DecidableEq, Repr

/-! ## Assignment engine: roundRobinAssignment and leastLoadAssignment -/

/-- js: `tickets.map(t => ({...t, assignedDoctor: doctors[doctorIndex++ % doctors.length]}))`.
With an empty roster, `doctors[i % 0]` is `doctors[NaN] = undefined`;
in the embedding, `i % 0 = i` and `List.get?` of the empty list is `none`,
so both give an absent doctor. -/
def roundRobinAssignment (tickets : List Ticket) (doctors : List Doctor) :
    List (Ticket × Option Doctor) :=
  tickets.mapIdx fun doctorIndex ticket =>
    (ticket, doctors.get? (doctorIndex % doctors.length))

/-- js leastLoadAssignment: forEach over doctors keeping the doctor with the
strictly smallest load seen so far; `minLoad` starts at Infinity, which is
modelled by `none` (every finite load is < Infinity); `currentLoads[doctor.id] || 0`
is modelled by `getD 0`. -/
def leastLoadAssignment (ticket : Ticket) (doctors : List Doctor)
    (currentLoads : Nat → Option ℚ) : Option Doctor :=
  let step := fun (acc : Option ℚ × Option Doctor) (doctor : Doctor) =>
    let load := (currentLoads doctor.id).getD 0
    match acc.1 with
    | none => (some load, some doctor)
    | some m => if load < m then (some load, some doctor) else acc
  (doctors.foldl step (none, none)).2

/-! ## Retry helper: exponentialBackoff -/

/-- Result of the async exponentialBackoff wrapper: the value of a successful
attempt, the error of the final failed attempt (rethrown), or absent
(JS undefined) when the loop body never runs. -/
inductive BackoffResult (ε α : Type) where
  | value (a : α)
  | error (e : ε)
  | absent
deriving DecidableEq, Repr

/-- js loop `for (let i = 0; i < maxRetries; i++)`, where attempt `i` of the
wrapped operation is `op i`.  The second component records which attempts
were actually invoked, in order.  The delay between attempts does not
affect the returned value and is not recorded. -/
def backoffLoop (ε α : Type) (op : Nat → Except ε α) (maxRetries : Int) (i : Nat) :
    BackoffResult ε α × List Nat :=
  if h : (i : Int) < maxRetries then
    match op i with
    | .ok a => (.value a, [i])
    | .error e =>
      if (i : Int) = maxRetries - 1 then (.error e, [i])
      else
        let r := backoffLoop ε α op maxRetries (i + 1)
        (r.1, i :: r.2)
  else (.absent, [])
termination_by (maxRetries - i).toNat
decreasing_by
  have h1 : (i : Int) < maxRetries := h
  omega

/-- js exponentialBackoff(operation, maxRetries = 5). -/
def exponentialBackoff (ε α : Type) (op : Nat → Except ε α) (maxRetries : Int) :
    BackoffResult ε α × List Nat :=
  backoffLoop ε α op maxRetries 0

/-! ## knnRecommendation -/

/-- js `text.toLowerCase().split(/[\s,]+/).filter(s => s)`: lower-case,
split on whitespace or commas, drop empty tokens.  Splitting on a regex run
`[\s,]+` equals splitting on every single separator and then dropping the
empty pieces, which is what the filter does.  Tokens are kept as character
lists so that concrete runs reduce in the kernel. -/
def tokenize (s : String) : List (List Char) :=
  ((s.data.map Char.toLower).splitOnP fun c => c.isWhitespace || c == ',').filter (· ≠ [])

/-- js `commonTerms.length / Math.max(symp.length, doctorSpecialties.length)`.
When both token lists are empty the JS division is 0 / 0 = NaN, modelled
as `none`; the source has no guard for this case. -/
def knnSimilarity (common denom : Nat) : Option ℚ :=
  if denom = 0 then none else some ((common : ℚ) / denom)

/-- The `doctors.map` stage of knnRecommendation: each doctor is paired
with its similarity to the symptom text. -/
def knnDistances (symptoms : String) (doctors : List Doctor) :
    List (Doctor × Option ℚ) :=
  let symp := tokenize symptoms
  doctors.map fun doctor =>
    let doctorSpecialties := tokenize (doctor.specialties.getD "")
    let commonTerms := symp.filter fun s => doctorSpecialties.contains s
    (doctor, knnSimilarity commonTerms.length (max symp.length doctorSpecialties.length))

/-- Sort key for `distances.sort((a, b) => b.similarity - a.similarity)`:
descending similarity.  A NaN similarity makes the JS comparator NaN and
the resulting order implementation-defined; the embedding places `none`
as if it were 0.  The claims proved below do not depend on this choice. -/
def knnLe (a b : Doctor × Option ℚ) : Prop :=
  b.2.getD 0 ≤ a.2.getD 0

instance : DecidableRel knnLe := fun a b => inferInstanceAs (Decidable (_ ≤ _))

instance : IsTotal (Doctor × Option ℚ) knnLe :=
  ⟨fun a b => (le_total (b.2.getD 0) (a.2.getD 0)).imp id id⟩

instance : IsTrans (Doctor × Option ℚ) knnLe :=
  ⟨fun _ _ _ h1 h2 => le_trans h2 h1⟩

/-- js knnRecommendation(symptoms, doctors, k = 3): map to similarities,
sort descending, take the first k, keep those with similarity > 0
(`d.similarity > 0` is false for NaN). -/
def knnRecommendation (symptoms : String) (doctors : List Doctor) (k : Nat) :
    List (Doctor × Option ℚ) :=
  let distances := knnDistances symptoms doctors
  ((distances.insertionSort knnLe).take k).filter fun d =>
    match d.2 with
    | some q => 0 < q
    | none => false

/-! ## Claim C1 -/

/-- Indexed map where every index yields an absent doctor is a plain map. -/
theorem mapIdx_none_eq_map (tickets : List Ticket) (g : Nat → Option Doctor)
    (hg : ∀ i, g i = none) :
    (tickets.mapIdx fun i t => (t, g i)) = tickets.map fun t => (t, (none : Option Doctor)) := by
  induction tickets generalizing g with
  | nil => rfl
  | cons t ts ih =>
    rw [List.mapIdx_cons, List.map_cons, hg 0, ih (fun i => g (i + 1)) (fun i => hg (i + 1))]

/-- Claim C1: with an empty doctor roster, roundRobinAssignment assigns no
doctor to any ticket, leastLoadAssignment returns null, and
knnRecommendation returns the empty list; none of them fails. -/
theorem empty_roster_signals_no_assignment
    (tickets : List Ticket) (ticket : Ticket) (currentLoads : Nat → Option ℚ)
    (symptoms : String) (k : Nat) :
    roundRobinAssignment tickets [] = tickets.map (fun t => (t, (none : Option Doctor))) ∧
    leastLoadAssignment ticket [] currentLoads = none ∧
    knnRecommendation symptoms [] k = [] := by
  refine ⟨?_, rfl, ?_⟩
  · exact mapIdx_none_eq_map tickets _ (fun i => rfl)
  · simp [knnRecommendation, knnDistances]

/-! ## Claim C10 -/

/-- Claim C10: with maxRetries ≤ 0 the backoff loop body never runs: the
wrapped operation is never invoked (empty attempt trace) and the result
is the absent value, not a success and not an error. -/
theorem backoff_nonpositive_retries_absent
    (ε α : Type) (op : Nat → Except ε α) (maxRetries : Int)
    (h : maxRetries ≤ 0) :
    exponentialBackoff ε α op maxRetries = (.absent, []) := by
  unfold exponentialBackoff
  rw [backoffLoop]
  simp only [Int.natCast_zero]
  rw [dif_neg (by omega)]

/-- Witness for C10 at maxRetries = 0 and an operation that always fails. -/
theorem backoff_nonpositive_retries_absent_witness :
    exponentialBackoff Nat Nat (fun _ => .error 7) 0 = (.absent, []) :=
  backoff_nonpositive_retries_absent Nat Nat (fun _ => .error 7) 0 (by decide)

/-! ## Admission controller: TokenBucket -/

/-- js TokenBucket state: capacity, tokens, refillRate (tokens per second)
and the lastRefill instant.  Instants are milliseconds as rationals. -/
structure TokenBucket where
  capacity : ℚ
  tokens : ℚ
  refillRate : ℚ
  lastRefill : ℚ
deriving DecidableEq, Repr

/-- js constructor: starts full, lastRefill = Date.now().  The clock is the
explicit `now` argument throughout. -/
def TokenBucket.create (capacity refillRate now : ℚ) : TokenBucket :=
  ⟨capacity, capacity, refillRate, now⟩

/-- js refill(): elapsed seconds since lastRefill times refillRate, capped
at capacity. -/
def TokenBucket.refill (b : TokenBucket) (now : ℚ) : TokenBucket :=
  let elapsed := (now - b.lastRefill) / 1000
  { b with tokens := min b.capacity (b.tokens + elapsed * b.refillRate), lastRefill := now }

/-- js consume(amount = 1): refill first, then decrement only when enough
tokens are available; otherwise report failure with no side effect. -/
def TokenBucket.consume (b : TokenBucket) (now amount : ℚ) : Bool × TokenBucket :=
  let b1 := b.refill now
  if amount ≤ b1.tokens then (true, { b1 with tokens := b1.tokens - amount })
  else (false, b1)

/-- A sequence of consume calls, each given as (now, amount). -/
def TokenBucket.runConsumes (b : TokenBucket) (calls : List (ℚ × ℚ)) : TokenBucket :=
  calls.foldl (fun b c => (b.consume c.1 c.2).2) b

/-- Bucket bounds preserved by a single consume call with a clock that has
not gone backwards and a non-negative amount. -/
theorem TokenBucket.consume_bounds (b : TokenBucket) (now amount : ℚ)
    (hcap : 0 ≤ b.capacity) (hrate : 0 ≤ b.refillRate)
    (htok : 0 ≤ b.tokens) (hle : b.tokens ≤ b.capacity)
    (hnow : b.lastRefill ≤ now) (hamt : 0 ≤ amount) :
    0 ≤ ((b.consume now amount).2).tokens ∧
    ((b.consume now amount).2).tokens ≤ b.capacity ∧
    ((b.consume now amount).2).capacity = b.capacity ∧
    ((b.consume now amount).2).refillRate = b.refillRate ∧
    ((b.consume now amount).2).lastRefill = now := by
  have helapsed : 0 ≤ (now - b.lastRefill) / 1000 * b.refillRate :=
    mul_nonneg (div_nonneg (sub_nonneg.mpr hnow) (by norm_num)) hrate
  have h0 : 0 ≤ min b.capacity (b.tokens + (now - b.lastRefill) / 1000 * b.refillRate) :=
    le_min hcap (by linarith)
  have h2 : min b.capacity (b.tokens + (now - b.lastRefill) / 1000 * b.refillRate) ≤
      b.capacity := min_le_left _ _
  simp only [TokenBucket.consume, TokenBucket.refill]
  split_ifs with hc
  · exact ⟨sub_nonneg.mpr hc, by dsimp only; linarith, rfl, rfl, rfl⟩
  · exact ⟨h0, h2, rfl, rfl, rfl⟩

/-- A chain hypothesis restricts to any prefix of the list. -/
theorem chain_le_take {α : Type} (r : α → α → Prop) :
    ∀ (l : List α) (a : α), List.Chain r a l → ∀ n, List.Chain r a (l.take n) := by
  intro l
  induction l with
  | nil => intro a _ n; simp
  | cons b l ih =>
    intro a h n
    rw [List.chain_cons] at h
    cases n with
    | zero => simp
    | succ n => exact List.chain_cons.mpr ⟨h.1, ih b h.2 n⟩

/-- Bucket bounds preserved along any consume sequence with monotone clock
and non-negative amounts; the invariant also carries the current lastRefill
so that the chain hypothesis can be peeled one call at a time. -/
theorem TokenBucket.runConsumes_bounds (cap rate : ℚ) (hcap : 0 ≤ cap) (hrate : 0 ≤ rate) :
    ∀ (calls : List (ℚ × ℚ)) (b : TokenBucket),
      b.capacity = cap → b.refillRate = rate → 0 ≤ b.tokens → b.tokens ≤ cap →
      (∀ c ∈ calls, 0 ≤ c.2) →
      List.Chain (· ≤ ·) b.lastRefill (calls.map Prod.fst) →
      0 ≤ (b.runConsumes calls).tokens ∧ (b.runConsumes calls).tokens ≤ cap := by
  intro calls
  induction calls with
  | nil => intro b h1 _ h3 h4 _ _; exact ⟨h3, h4⟩
  | cons c cs ih =>
    intro b h1 h2 h3 h4 hamts hchain
    rw [List.map_cons, List.chain_cons] at hchain
    have hcapb : 0 ≤ b.capacity := h1.symm ▸ hcap
    have hrateb : 0 ≤ b.refillRate := h2.symm ▸ hrate
    have hleb : b.tokens ≤ b.capacity := h1.symm ▸ h4
    have hstep := TokenBucket.consume_bounds b c.1 c.2 hcapb hrateb h3 hleb hchain.1
      (hamts c (List.mem_cons_self c cs))
    have hrun : b.runConsumes (c :: cs) = ((b.consume c.1 c.2).2).runConsumes cs := rfl
    rw [hrun]
    refine ih ((b.consume c.1 c.2).2) (hstep.2.2.1.trans h1) (hstep.2.2.2.1.trans h2)
      hstep.1 (hstep.2.1.trans (le_of_eq h1)) (fun d hd => hamts d (List.mem_cons_of_mem c hd)) ?_
    rw [hstep.2.2.2.2]
    exact hchain.2

/-- Claim C5: starting from a freshly created bucket with non-negative
capacity and refill rate, after every prefix of a sequence of consume calls
with non-decreasing clock readings and non-negative amounts the token count
stays within [0, capacity]; and a consume call that returns false leaves
the token count exactly as the refill left it (no decrement). -/
theorem token_bucket_conservation
    (capacity refillRate t0 : ℚ) (hcap : 0 ≤ capacity) (hrate : 0 ≤ refillRate)
    (calls : List (ℚ × ℚ))
    (hamts : ∀ c ∈ calls, 0 ≤ c.2)
    (htimes : List.Chain (· ≤ ·) t0 (calls.map Prod.fst)) :
    (∀ n, 0 ≤ ((TokenBucket.create capacity refillRate t0).runConsumes (calls.take n)).tokens ∧
       ((TokenBucket.create capacity refillRate t0).runConsumes (calls.take n)).tokens ≤
         capacity) ∧
    (∀ (b : TokenBucket) (now amount : ℚ), (b.consume now amount).1 = false →
       ((b.consume now amount).2).tokens = (b.refill now).tokens) := by
  constructor
  · intro n
    refine TokenBucket.runConsumes_bounds capacity refillRate hcap hrate (calls.take n)
      (TokenBucket.create capacity refillRate t0) rfl rfl hcap le_rfl
      (fun c hc => hamts c (List.mem_of_mem_take hc)) ?_
    have h := chain_le_take (· ≤ ·) (calls.map Prod.fst) t0 htimes n
    simpa [List.map_take] using h
  · intro b now amount hfail
    simp only [TokenBucket.consume] at hfail ⊢
    split_ifs at hfail ⊢
    rfl

/-- Witness for C5: capacity 10, rate 1 token per second, created at time 0,
two calls: at t = 1000 consume 3 (succeeds), at t = 5000 consume 100
(fails). -/
theorem token_bucket_conservation_witness :
    0 ≤ ((TokenBucket.create 10 1 0).runConsumes ([((1000 : ℚ), (3 : ℚ)),
      (5000, 100)].take 2)).tokens ∧
    ((TokenBucket.create 10 1 0).runConsumes ([((1000 : ℚ), (3 : ℚ)),
      (5000, 100)].take 2)).tokens ≤ 10 :=
  (token_bucket_conservation 10 1 0 (by norm_num) (by norm_num)
    [(1000, 3), (5000, 100)]
    (by intro c hc; simp at hc; rcases hc with h | h <;> simp [h])
    (by norm_num)).1 2

/-! ## Bounded cache: LRUCache -/

/-- js LRUCache over a Map: a JS Map iterates in insertion order, so the
cache is an association list whose first entry is the oldest (least
recently used) and whose last entry is the most recently used. -/
structure LRUCache where
  capacity : Nat
  cache : List (Nat × Nat)
deriving DecidableEq, Repr

/-- js get(key): miss returns null; a hit deletes the entry and re-inserts
it (moving it to the most-recently-used end) and returns the value. -/
def LRUCache.get (c : LRUCache) (key : Nat) : Option Nat × LRUCache :=
  match c.cache.lookup key with
  | none => (none, c)
  | some value =>
    (some value, { c with cache := (c.cache.filter fun p => p.1 != key) ++ [(key, value)] })

/-- js put(key, value): drop any existing entry for the key, append the new
entry at the most-recently-used end, then evict the first (oldest) entry
if the size now exceeds the capacity. -/
def LRUCache.put (c : LRUCache) (key value : Nat) : LRUCache :=
  let c1 := if (c.cache.lookup key).isSome then c.cache.filter (fun p => p.1 != key)
    else c.cache
  let c2 := c1 ++ [(key, value)]
  if c.capacity < c2.length then { c with cache := c2.tail } else { c with cache := c2 }

/-! ## Claim C8 -/

/-- Claim C8: a get hit moves the accessed entry to the most-recently-used
(last) position, so a later eviction picks its victim with the refreshed
recency; in particular with capacity 2 the sequence put(a,1), put(b,2),
get(a), put(c,3) evicts b and not a (keys a, b, c are 0, 1, 2). -/
theorem lru_get_hit_refreshes_recency :
    (∀ (c : LRUCache) (key v : Nat), (c.get key).1 = some v →
      ((c.get key).2).cache.getLast? = some (key, v)) ∧
    ((((((LRUCache.mk 2 []).put 0 1).put 1 2).get 0).2.put 2 3).get 0).1 = some 1 ∧
    ((((((LRUCache.mk 2 []).put 0 1).put 1 2).get 0).2.put 2 3).get 2).1 = some 3 ∧
    ((((((LRUCache.mk 2 []).put 0 1).put 1 2).get 0).2.put 2 3).get 1).1 = none := by
  refine ⟨?_, by decide, by decide, by decide⟩
  intro c key v hhit
  unfold LRUCache.get at hhit ⊢
  cases hl : c.cache.lookup key with
  | none =>
    rw [hl] at hhit
    simp at hhit
  | some value =>
    rw [hl] at hhit
    have hv : value = v := Option.some.inj hhit
    subst hv
    show ((c.cache.filter fun p => p.1 != key) ++ [(key, value)]).getLast? = some (key, value)
    simp

/-- Witness for C8 at a concrete hit: key 5 holding value 7 next to another
entry. -/
theorem lru_get_hit_refreshes_recency_witness :
    ((LRUCache.mk 2 [(5, 7), (4, 9)]).get 5).2.cache.getLast? = some (5, 7) :=
  lru_get_hit_refreshes_recency.1 (LRUCache.mk 2 [(5, 7), (4, 9)]) 5 7 (by decide)

/-! ## Notification batcher -/

/-- js NotificationBatcher: the pending batch, the size threshold, the flush
interval of the one-shot timer and whether a timer is currently armed
(this.timer !== null). -/
structure NotificationBatcher (α : Type) where
  batch : List α
  batchSize : Nat
  flushInterval : Nat
  timer : Bool

/-- js flush(): returns undefined on an empty batch, otherwise snapshots
and clears the batch, cancels the timer and returns the snapshot. -/
def NotificationBatcher.flush {α : Type} (b : NotificationBatcher α) :
    Option (List α) × NotificationBatcher α :=
  if b.batch.isEmpty then (none, b)
  else (some b.batch, { b with batch := [], timer := false })

/-- js add(notification): push, flush immediately once the threshold is
reached, otherwise arm the one-shot timer on the first item only.  The
first component surfaces the result of the flush the add triggered, if
any. -/
def NotificationBatcher.add {α : Type} (b : NotificationBatcher α) (n : α) :
    Option (List α) × NotificationBatcher α :=
  let b1 := { b with batch := b.batch ++ [n] }
  if b1.batchSize ≤ b1.batch.length then b1.flush
  else if !b1.timer then (none, { b1 with timer := true })
  else (none, b1)

/-- Adding a list of notifications one by one; the first component is the
flush result of the last add (none when no notification was added). -/
def NotificationBatcher.addAll {α : Type} (b : NotificationBatcher α) (ns : List α) :
    Option (List α) × NotificationBatcher α :=
  ns.foldl (fun acc n => acc.2.add n) (none, b)

/-- Below the threshold, adds accumulate in order without flushing. -/
theorem NotificationBatcher.addAll_below_threshold {α : Type} :
    ∀ (ns : List α) (b : NotificationBatcher α),
      b.batch.length + ns.length < b.batchSize →
      (b.addAll ns).1 = none ∧ ((b.addAll ns).2).batch = b.batch ++ ns ∧
      ((b.addAll ns).2).batchSize = b.batchSize := by
  intro ns
  induction ns with
  | nil => intro b _; exact ⟨rfl, (List.append_nil b.batch).symm, rfl⟩
  | cons n ns ih =>
    intro b hlen
    simp only [List.length_cons] at hlen
    have hadd : b.add n =
        (none, { b with batch := b.batch ++ [n], timer := if !b.timer then true else b.timer }) := by
      unfold NotificationBatcher.add
      have hth : ¬ (b.batchSize ≤ (b.batch ++ [n]).length) := by
        simp only [List.length_append, List.length_cons, List.length_nil]
        omega
      rw [if_neg hth]
      by_cases ht : b.timer
      · simp [ht]
      · simp [ht]
    have hstep : b.addAll (n :: ns) =
        ({ b with batch := b.batch ++ [n], timer := if !b.timer then true else b.timer } :
          NotificationBatcher α).addAll ns := by
      unfold NotificationBatcher.addAll
      rw [List.foldl_cons]
      have h1 : ((none, b) : Option (List α) × NotificationBatcher α).2.add n = b.add n := rfl
      rw [h1, hadd]
    rw [hstep]
    have hrec := ih
      { b with batch := b.batch ++ [n], timer := if !b.timer then true else b.timer }
      (by simp only [List.length_append, List.length_cons, List.length_nil]; omega)
    refine ⟨hrec.1, ?_, hrec.2.2⟩
    rw [hrec.2.1]
    simp

/-! ## Claim C9 -/

/-- Claim C9: adding exactly batchSize notifications to an empty batcher
flushes on the last add, returning all notifications in insertion order,
leaves the internal batch empty immediately after, and no earlier add
triggered a flush. -/
theorem batcher_threshold_flush (B flushInterval : Nat) (hB : 1 ≤ B)
    (ns : List Nat) (hlen : ns.length = B) :
    ((NotificationBatcher.mk [] B flushInterval false).addAll ns).1 = some ns ∧
    (((NotificationBatcher.mk [] B flushInterval false).addAll ns).2).batch = [] ∧
    ∀ k < B, ((NotificationBatcher.mk [] B flushInterval false).addAll (ns.take k)).1 = none := by
  have hne : ns ≠ [] := by
    intro h
    rw [h] at hlen
    simp at hlen
    omega
  have hsplit : ns.dropLast ++ [ns.getLast hne] = ns := List.dropLast_append_getLast hne
  have hdl : ns.dropLast.length = B - 1 := by rw [List.length_dropLast, hlen]
  have hpre := NotificationBatcher.addAll_below_threshold ns.dropLast
    (NotificationBatcher.mk [] B flushInterval false) (by simp [hdl]; omega)
  set b1 := ((NotificationBatcher.mk [] B flushInterval false).addAll ns.dropLast).2 with hb1
  have hfold : (NotificationBatcher.mk [] B flushInterval false).addAll ns =
      b1.add (ns.getLast hne) := by
    conv_lhs => rw [← hsplit]
    unfold NotificationBatcher.addAll
    rw [List.foldl_append, List.foldl_cons, List.foldl_nil]
    rfl
  have hbatch : b1.batch = ns.dropLast := by
    have h := hpre.2.1
    simpa using h
  have hsize : b1.batchSize = B := hpre.2.2
  have hflush : b1.add (ns.getLast hne) = (some ns, { b1 with batch := [], timer := false }) := by
    unfold NotificationBatcher.add NotificationBatcher.flush
    have hlen1 : (b1.batch ++ [ns.getLast hne]).length = B := by
      rw [hbatch]
      simp [hdl]
      omega
    have hth : b1.batchSize ≤ (b1.batch ++ [ns.getLast hne]).length := by
      rw [hlen1, hsize]
    rw [if_pos hth]
    have hnsne : b1.batch ++ [ns.getLast hne] = ns := by rw [hbatch, hsplit]
    simp only
    rw [if_neg (by simp [hnsne, hne])]
    simp only [hnsne]
  constructor
  · rw [hfold, hflush]
  constructor
  · rw [hfold, hflush]
  · intro k hk
    have htake := NotificationBatcher.addAll_below_threshold (ns.take k)
      (NotificationBatcher.mk [] B flushInterval false) (by
        simp only [List.length_take, List.length_nil, Nat.zero_add, hlen]
        omega)
    exact htake.1

/-- Witness for C9: threshold 2, notifications [10, 20]. -/
theorem batcher_threshold_flush_witness :
    ((NotificationBatcher.mk [] 2 5000 false).addAll [10, 20]).1 = some [10, 20] ∧
    (((NotificationBatcher.mk [] 2 5000 false).addAll [10, 20]).2).batch = [] :=
  ⟨(batcher_threshold_flush 2 5000 (by decide) [10, 20] (by decide)).1,
   (batcher_threshold_flush 2 5000 (by decide) [10, 20] (by decide)).2.1⟩

/-! ## Availability engine: findAvailableSlots -/

/-- Time interval with millisecond instants, used for both booked slots and
the free gaps the sweep emits. -/
structure Slot where
  start : Int
  «end» : Int
deriving DecidableEq, Repr

/-- Sort key of `bookedSlots.sort((a, b) => a.start - b.start)`: ascending
interval start. -/
def slotLe (a b : Slot) : Prop :=
  a.start ≤ b.start

instance : DecidableRel slotLe := fun a b => inferInstanceAs (Decidable (_ ≤ _))

instance : IsTotal Slot slotLe := ⟨fun a b => le_total a.start b.start⟩

instance : IsTrans Slot slotLe := ⟨fun _ _ _ => le_trans⟩

/-- Loop body of the sweep in findAvailableSlots: emit a gap from the cursor
to the start of the slot when the cursor is before it, then advance the
cursor to at least the end of the slot. -/
def availStep (acc : List Slot × Int) (slot : Slot) : List Slot × Int :=
  (if acc.2 < slot.start then acc.1 ++ [⟨acc.2, slot.start⟩] else acc.1,
   max acc.2 slot.«end»)

/-- js findAvailableSlots(bookedSlots, startTime, endTime, slotDuration = 30);
the slotDuration parameter is unused in the source.  Sort the booked slots
by start, sweep a cursor from startTime emitting gaps, then emit a final
gap up to endTime when the cursor is still before it. -/
def findAvailableSlots (bookedSlots : List Slot) (startTime endTime : Int) : List Slot :=
  let sortedSlots := bookedSlots.insertionSort slotLe
  let acc := sortedSlots.foldl availStep ([], startTime)
  if acc.2 < endTime then acc.1 ++ [⟨acc.2, endTime⟩] else acc.1

/-- A gap is good when it lies inside the window and misses every booked
interval (interpreting intervals as half-open [start, end)). -/
def GoodGap (booked : List Slot) (startTime endTime : Int) (g : Slot) : Prop :=
  startTime ≤ g.start ∧ g.start < g.«end» ∧ g.«end» ≤ endTime ∧
  ∀ b ∈ booked, g.«end» ≤ b.start ∨ b.«end» ≤ g.start

/-- Sweep invariant: over a sorted suffix of the booked slots, provided each
booked slot is either still to be processed or has its end behind the
cursor, all emitted gaps are good, the cursor never precedes the window
start and finally clears every booked end. -/
theorem availSweep_good (booked : List Slot) (startTime endTime : Int)
    (hb : ∀ b ∈ booked, b.start ≤ endTime) :
    ∀ (ss : List Slot) (acc : List Slot) (cur : Int),
      List.Pairwise slotLe ss →
      (∀ b ∈ ss, b ∈ booked) →
      (∀ b ∈ booked, b ∈ ss ∨ b.«end» ≤ cur) →
      startTime ≤ cur →
      (∀ g ∈ acc, GoodGap booked startTime endTime g) →
      (∀ g ∈ (ss.foldl availStep (acc, cur)).1, GoodGap booked startTime endTime g) ∧
      startTime ≤ (ss.foldl availStep (acc, cur)).2 ∧
      (∀ b ∈ booked, b.«end» ≤ (ss.foldl availStep (acc, cur)).2) := by
  intro ss
  induction ss with
  | nil =>
    intro acc cur _ _ hsplitb hcur hacc
    refine ⟨hacc, hcur, ?_⟩
    intro b hbmem
    rcases hsplitb b hbmem with h | h
    · exact absurd h (List.not_mem_nil b)
    · exact h
  | cons s ss ih =>
    intro acc cur hpair hsub hsplitb hcur hacc
    rw [List.pairwise_cons] at hpair
    have hs_booked : s ∈ booked := hsub s (List.mem_cons_self s ss)
    have hstep : availStep (acc, cur) s =
        ((if cur < s.start then acc ++ [⟨cur, s.start⟩] else acc), max cur s.«end») := rfl
    rw [List.foldl_cons, hstep]
    apply ih
    · exact hpair.2
    · exact fun b hb' => hsub b (List.mem_cons_of_mem s hb')
    · intro b hbmem
      rcases hsplitb b hbmem with h | h
      · rcases List.mem_cons.mp h with rfl | h2
        · exact Or.inr (le_max_right cur b.«end»)
        · exact Or.inl h2
      · exact Or.inr (h.trans (le_max_left cur s.«end»))
    · exact hcur.trans (le_max_left cur s.«end»)
    · intro g hg
      by_cases hlt : cur < s.start
      · rw [if_pos hlt] at hg
        rcases List.mem_append.mp hg with hgo | hgn
        · exact hacc g hgo
        · have hgeq : g = ⟨cur, s.start⟩ := List.mem_singleton.mp hgn
          subst hgeq
          refine ⟨hcur, hlt, hb s hs_booked, ?_⟩
          intro b hbmem
          rcases hsplitb b hbmem with hin | hend
          · rcases List.mem_cons.mp hin with rfl | h2
            · exact Or.inl (le_refl _)
            · exact Or.inl (hpair.1 b h2)
          · exact Or.inr hend
      · rw [if_neg hlt] at hg
        exact hacc g hg

/-- Claim C4, amended: provided every booked interval starts no later than
the window end, every returned gap lies inside [startTime, endTime), is
nonempty, and is disjoint from every booked interval; and a zero-length or
inverted window yields no gaps.  (Without that proviso a booked interval
starting after endTime makes the sweep emit a gap that overruns the
window; see the counterexample below.) -/
theorem findAvailableSlots_gaps (bookedSlots : List Slot) (startTime endTime : Int)
    (hb : ∀ b ∈ bookedSlots, b.start ≤ endTime) :
    (∀ g ∈ findAvailableSlots bookedSlots startTime endTime,
      startTime ≤ g.start ∧ g.start < g.«end» ∧ g.«end» ≤ endTime ∧
      ∀ b ∈ bookedSlots, g.«end» ≤ b.start ∨ b.«end» ≤ g.start) ∧
    (endTime ≤ startTime → findAvailableSlots bookedSlots startTime endTime = []) := by
  have hperm := List.perm_insertionSort slotLe bookedSlots
  have hsorted := List.sorted_insertionSort slotLe bookedSlots
  have hsweep := availSweep_good bookedSlots startTime endTime hb
    (bookedSlots.insertionSort slotLe) [] startTime
    hsorted (fun b hb' => hperm.mem_iff.mp hb') (fun b hb' => Or.inl (hperm.mem_iff.mpr hb'))
    le_rfl (fun g hg => absurd hg (List.not_mem_nil g))
  set res := (bookedSlots.insertionSort slotLe).foldl availStep ([], startTime) with hres
  have hunf : findAvailableSlots bookedSlots startTime endTime =
      if res.2 < endTime then res.1 ++ [⟨res.2, endTime⟩] else res.1 := rfl
  constructor
  · intro g hg
    rw [hunf] at hg
    by_cases hfin : res.2 < endTime
    · rw [if_pos hfin] at hg
      rcases List.mem_append.mp hg with h | h
      · exact hsweep.1 g h
      · have hgeq : g = ⟨res.2, endTime⟩ := List.mem_singleton.mp h
        subst hgeq
        exact ⟨hsweep.2.1, hfin, le_refl _, fun b hbmem => Or.inr (hsweep.2.2 b hbmem)⟩
    · rw [if_neg hfin] at hg
      exact hsweep.1 g hg
  · intro hwin
    rw [hunf, if_neg (by linarith [hsweep.2.1])]
    rcases hemp : res.1 with _ | ⟨g, gs⟩
    · rfl
    · have hg : GoodGap bookedSlots startTime endTime g := by
        apply hsweep.1
        rw [hemp]
        exact List.mem_cons_self g gs
      have h1 := hg.1
      have h2 := hg.2.1
      have h3 := hg.2.2.1
      linarith

/-- Counterexample for claim C4 as stated: a booked interval entirely after
the window makes the sweep emit the gap [0, 20) although the window is
[0, 10); and with an inverted window [10, 5) the result is still not
empty. -/
theorem findAvailableSlots_counterexample :
    findAvailableSlots [⟨20, 30⟩] 0 10 = [⟨0, 20⟩] ∧
    ¬ ((20 : Int) ≤ 10) ∧
    findAvailableSlots [⟨20, 25⟩] 10 5 = [⟨10, 20⟩] ∧
    findAvailableSlots [⟨20, 25⟩] 10 5 ≠ [] := by
  refine ⟨by decide, by decide, by decide, by decide⟩

/-- Witness for the amended C4: booked interval [300, 400), inverted window
[720, 540): no gaps. -/
theorem findAvailableSlots_gaps_witness :
    findAvailableSlots [⟨300, 400⟩] 720 540 = [] :=
  (findAvailableSlots_gaps [⟨300, 400⟩] 720 540 (by decide)).2 (by decide)

/-! ## Claim C6 -/

/-- A similarity produced by the map stage is NaN (none) exactly when both
token lists are empty; the numerator never exceeds the denominator, so a
zero denominator forces the 0 / 0 case. -/
theorem knnDistances_none_iff (symptoms : String) (doctors : List Doctor) :
    ∀ p ∈ knnDistances symptoms doctors,
      (p.2 = none ↔ (tokenize symptoms = [] ∧ tokenize (p.1.specialties.getD "") = [])) := by
  intro p hp
  unfold knnDistances at hp
  rcases List.mem_map.mp hp with ⟨doctor, _, hmk⟩
  subst hmk
  dsimp only
  unfold knnSimilarity
  constructor
  · intro hnone
    by_cases hz : max (tokenize symptoms).length (tokenize (doctor.specialties.getD "")).length = 0
    · have h1 := Nat.max_eq_zero_iff.mp hz
      exact ⟨List.length_eq_zero.mp h1.1, List.length_eq_zero.mp h1.2⟩
    · rw [if_neg hz] at hnone
      exact absurd hnone (by simp)
  · intro hboth
    rw [if_pos (by rw [hboth.1, hboth.2]; rfl)]

/-- Every doctor in the knn result has a strictly positive (hence
well-defined) similarity. -/
theorem knnRecommendation_mem_pos (symptoms : String) (doctors : List Doctor) (k : Nat) :
    ∀ p ∈ knnRecommendation symptoms doctors k, ∃ q : ℚ, p.2 = some q ∧ 0 < q := by
  intro p hp
  unfold knnRecommendation at hp
  have hfilter := List.of_mem_filter hp
  cases hs : p.2 with
  | none => rw [hs] at hfilter; exact absurd hfilter (by simp)
  | some q =>
    refine ⟨q, rfl, ?_⟩
    rw [hs] at hfilter
    simpa using hfilter

/-- Claim C6, amended: the similarity division is not guarded: when both the
symptom token list and the specialty token list are empty the produced
similarity is NaN (modelled by none) rather than a number; whenever at
least one of the two lists is nonempty the similarity is a well-defined
number; and (as claimed) a doctor whose specialty text tokenizes to the
empty list — in particular one with a NaN similarity — is never returned,
because the final filter demands similarity > 0, which both 0 and NaN
fail. -/
theorem knn_division_unguarded_but_harmless
    (symptoms : String) (doctors : List Doctor) (k : Nat) :
    (∀ p ∈ knnDistances symptoms doctors,
      (p.2 = none ↔ (tokenize symptoms = [] ∧ tokenize (p.1.specialties.getD "") = []))) ∧
    (∀ p ∈ knnRecommendation symptoms doctors k,
      tokenize (p.1.specialties.getD "") ≠ [] ∧ ∃ q : ℚ, p.2 = some q ∧ 0 < q) := by
  refine ⟨knnDistances_none_iff symptoms doctors, ?_⟩
  intro p hp
  obtain ⟨q, hq, hqpos⟩ := knnRecommendation_mem_pos symptoms doctors k p hp
  refine ⟨?_, q, hq, hqpos⟩
  -- p comes from the map stage, so its similarity is the formula value
  have hpdist : p ∈ knnDistances symptoms doctors := by
    unfold knnRecommendation at hp
    have h1 : p ∈ (List.insertionSort knnLe (knnDistances symptoms doctors)).take k :=
      List.mem_of_mem_filter hp
    have h2 : p ∈ List.insertionSort knnLe (knnDistances symptoms doctors) :=
      List.mem_of_mem_take h1
    exact (List.perm_insertionSort knnLe (knnDistances symptoms doctors)).mem_iff.mp h2
  intro hempty
  -- with empty specialty tokens the common-term count is 0, so the
  -- similarity is either NaN or 0, contradicting positivity
  unfold knnDistances at hpdist
  rcases List.mem_map.mp hpdist with ⟨doctor, _, hmk⟩
  have hdoc : p.1 = doctor := by rw [← hmk]
  rw [hdoc] at hempty
  rw [← hmk] at hq
  dsimp only at hq
  rw [hempty] at hq
  unfold knnSimilarity at hq
  by_cases hz : max (tokenize symptoms).length (List.length ([] : List (List Char))) = 0
  · rw [if_pos hz] at hq
    exact absurd hq (by simp)
  · rw [if_neg hz] at hq
    have hcommon : (List.filter (fun s => List.contains ([] : List (List Char)) s)
        (tokenize symptoms)).length = 0 := by
      simp [List.contains]
    rw [hcommon] at hq
    simp only [Nat.cast_zero, zero_div, Option.some.injEq] at hq
    rw [← hq] at hqpos
    exact absurd hqpos (by norm_num)

/-- Counterexample for claim C6 as stated: with empty symptom text and a
doctor whose specialty text is empty, the similarity actually produced by
the map stage is NaN (none), not a well-defined number — the division is
not guarded. -/
theorem knn_division_counterexample :
    (knnDistances "" [⟨0, some ""⟩]).map Prod.snd = [none] ∧
    knnRecommendation "" [⟨0, some ""⟩] 3 = [] := by
  exact ⟨by decide, by decide⟩

/-- Concrete evaluation: a doctor whose specialty text equals the symptom
text scores similarity 1 and is returned.  (Rational division is proved by
norm_num because the Rat arithmetic operations are irreducible to the
kernel.) -/
theorem knn_cardio_eval : knnRecommendation "cardio" [⟨0, some "cardio"⟩] 3 =
    [(⟨0, some "cardio"⟩, some 1)] := by
  have ht : tokenize "cardio" = [['c','a','r','d','i','o']] := by decide
  have hsim : knnSimilarity 1 1 = some 1 := by
    unfold knnSimilarity
    norm_num
  have hdist : knnDistances "cardio" [⟨0, some "cardio"⟩] = [(⟨0, some "cardio"⟩, some 1)] := by
    unfold knnDistances
    dsimp only [List.map_cons, List.map_nil, Option.getD_some]
    rw [ht]
    rw [show List.filter (fun s => List.contains [['c','a','r','d','i','o']] s)
      [['c','a','r','d','i','o']] = [['c','a','r','d','i','o']] from by decide]
    dsimp only [List.length_cons, List.length_nil]
    rw [show max 1 1 = 1 from rfl, hsim]
  unfold knnRecommendation
  rw [hdist]
  norm_num [List.insertionSort, List.orderedInsert, List.take, List.filter]

/-- Witness for the amended C6 at a concrete roster: the matching doctor is
returned with similarity 1 > 0 and nonempty specialty tokens. -/
theorem knn_division_unguarded_but_harmless_witness :
    tokenize ((Doctor.mk 0 (some "cardio")).specialties.getD "") ≠ [] ∧
    ∃ q : ℚ, (Doctor.mk 0 (some "cardio"), (some 1 : Option ℚ)).2 = some q ∧ 0 < q :=
  (knn_division_unguarded_but_harmless "cardio" [Doctor.mk 0 (some "cardio")] 3).2
    (Doctor.mk 0 (some "cardio"), (some 1 : Option ℚ))
    (by rw [knn_cardio_eval]; exact List.mem_singleton.mpr rfl)

/-! ## Analytics engine: calculateWaitTimeStats -/

/-- js `waitTimes.reduce((a, b) => a + b)` with no initial value: the head
seeds the fold (the source only evaluates it on nonempty lists). -/
def jsReduceAdd : List ℚ → ℚ
  | [] => 0
  | x :: xs => xs.foldl (· + ·) x

/-- js `Math.max(...waitTimes)`: fold of max over the values (the source
only evaluates it on nonempty lists, where the JS result of the empty
spread, -Infinity, never appears). -/
def jsMax : List ℚ → ℚ
  | [] => 0
  | x :: xs => xs.foldl max x

/-- Wait time of a ticket in minutes, (completedAt - createdAt) / 1000 / 60. -/
def waitMinutes (t : Ticket) : ℚ :=
  (((t.completedAt.getD 0 - t.createdAt.getD 0 : Int) : ℚ) / 1000) / 60

/-- Result record of calculateWaitTimeStats, each statistic rounded to the
nearest integer by Math.round. -/
structure WaitTimeStats where
  avgWaitTime : Int
  medianWaitTime : Int
  maxWaitTime : Int
deriving DecidableEq, Repr

/-- js calculateWaitTimeStats(tickets): filter to Completed tickets with
both timestamps present (js truthiness on the timestamp strings equals
presence), map to wait minutes, sort ascending, return rounded mean,
middle-index element and maximum, or all zeros if nothing qualifies. -/
def calculateWaitTimeStats (tickets : List Ticket) : WaitTimeStats :=
  let completedTickets := tickets.filter fun t =>
    t.status == statusCompleted && t.createdAt.isSome && t.completedAt.isSome
  if completedTickets.length = 0 then ⟨0, 0, 0⟩
  else
    let waitTimes := (completedTickets.map waitMinutes).insertionSort (· ≤ ·)
    let avgWaitTime := jsReduceAdd waitTimes / waitTimes.length
    let medianWaitTime := waitTimes.getD (waitTimes.length / 2) 0
    let maxWaitTime := jsMax waitTimes
    ⟨round avgWaitTime, round medianWaitTime, round maxWaitTime⟩

/-- The seedless reduce equals the list sum. -/
theorem jsReduceAdd_eq_sum : ∀ l : List ℚ, l ≠ [] → jsReduceAdd l = l.sum := by
  have hfold : ∀ (xs : List ℚ) (x : ℚ), xs.foldl (· + ·) x = x + xs.sum := by
    intro xs
    induction xs with
    | nil => intro x; simp
    | cons y xs ih =>
      intro x
      rw [List.foldl_cons, ih (x + y), List.sum_cons]
      ring
  intro l hl
  cases l with
  | nil => exact absurd rfl hl
  | cons x xs => rw [jsReduceAdd, hfold, List.sum_cons]

/-- The max fold yields an element of the list that dominates the list. -/
theorem jsMax_spec : ∀ l : List ℚ, l ≠ [] → jsMax l ∈ l ∧ ∀ w ∈ l, w ≤ jsMax l := by
  have hfold : ∀ (xs : List ℚ) (x : ℚ),
      xs.foldl max x ∈ x :: xs ∧ x ≤ xs.foldl max x ∧ ∀ w ∈ xs, w ≤ xs.foldl max x := by
    intro xs
    induction xs with
    | nil => intro x; exact ⟨List.mem_singleton.mpr rfl, le_rfl, by simp⟩
    | cons y xs ih =>
      intro x
      rw [List.foldl_cons]
      obtain ⟨hmem, hle, hall⟩ := ih (max x y)
      refine ⟨?_, le_trans (le_max_left x y) hle, ?_⟩
      · rcases List.mem_cons.mp hmem with h | h
        · rcases max_choice x y with hc | hc
          · rw [h, hc]; exact List.mem_cons_self x (y :: xs)
          · rw [h, hc]; exact List.mem_cons_of_mem x (List.mem_cons_self y xs)
        · exact List.mem_cons_of_mem x (List.mem_cons_of_mem y h)
      · intro w hw
        rcases List.mem_cons.mp hw with h | h
        · rw [h]; exact le_trans (le_max_right x y) hle
        · exact hall w h
  intro l hl
  cases l with
  | nil => exact absurd rfl hl
  | cons x xs =>
    obtain ⟨hmem, hle, hall⟩ := hfold xs x
    refine ⟨hmem, ?_⟩
    intro w hw
    rcases List.mem_cons.mp hw with h | h
    · rw [h]; exact hle
    · exact hall w h

/-- Claim C7: the statistics consider exactly the Completed tickets with
both timestamps present; on no qualifying tickets all three fields are 0;
otherwise the average is the rounded mean of the wait minutes, the median
is the rounded element at index ⌊n / 2⌋ of the ascending-sorted list (not
interpolated), and the maximum is the rounded greatest wait time; for wait
times [10, 20, 30] the result is avg 20, median 20, max 30. -/
theorem wait_time_stats_spec (tickets : List Ticket) :
    ((tickets.filter fun t =>
        t.status == statusCompleted && t.createdAt.isSome && t.completedAt.isSome) = [] →
      calculateWaitTimeStats tickets = ⟨0, 0, 0⟩) ∧
    (∀ ws, ws = ((tickets.filter fun t =>
        t.status == statusCompleted && t.createdAt.isSome && t.completedAt.isSome).map
          waitMinutes) → ws ≠ [] →
      (calculateWaitTimeStats tickets).avgWaitTime = round (ws.sum / ws.length) ∧
      (calculateWaitTimeStats tickets).medianWaitTime =
        round ((ws.insertionSort (· ≤ ·)).getD (ws.length / 2) 0) ∧
      ∃ m ∈ ws, (calculateWaitTimeStats tickets).maxWaitTime = round m ∧ ∀ w ∈ ws, w ≤ m) ∧
    calculateWaitTimeStats [⟨1, 0, 2, some 0, some 600000⟩, ⟨2, 0, 2, some 0, some 1200000⟩,
      ⟨3, 0, 2, some 0, some 1800000⟩] = ⟨20, 20, 30⟩ := by
  refine ⟨?_, ?_, ?_⟩
  case refine_3 =>
    have h : (calculateWaitTimeStats [⟨1, 0, 2, some 0, some 600000⟩,
        ⟨2, 0, 2, some 0, some 1200000⟩, ⟨3, 0, 2, some 0, some 1800000⟩] : WaitTimeStats) =
        ⟨round ((20 : ℚ)), round ((20 : ℚ)), round ((30 : ℚ))⟩ := by
      show (⟨round (jsReduceAdd _ / _), round (List.getD _ _ 0), round (jsMax _)⟩ :
        WaitTimeStats) = _
      norm_num [jsReduceAdd, jsMax, waitMinutes, List.insertionSort, List.orderedInsert]
    rw [h]
    norm_num
  · intro hnil
    unfold calculateWaitTimeStats
    rw [hnil]
    rfl
  · intro ws hws hne
    have hlen : ¬ ((tickets.filter fun t =>
        t.status == statusCompleted && t.createdAt.isSome && t.completedAt.isSome).length = 0) := by
      intro h0
      apply hne
      rw [hws]
      exact List.map_eq_nil_iff.mpr (List.length_eq_zero.mp h0)
    have hunf : calculateWaitTimeStats tickets =
        ⟨round (jsReduceAdd (ws.insertionSort (· ≤ ·)) / (ws.insertionSort (· ≤ ·)).length),
         round ((ws.insertionSort (· ≤ ·)).getD ((ws.insertionSort (· ≤ ·)).length / 2) 0),
         round (jsMax (ws.insertionSort (· ≤ ·)))⟩ := by
      unfold calculateWaitTimeStats
      rw [if_neg hlen, hws]
    have hperm : (ws.insertionSort (· ≤ ·)).Perm ws := List.perm_insertionSort _ ws
    have hsne : ws.insertionSort (· ≤ ·) ≠ [] := by
      intro h
      exact hne ((h ▸ hperm).symm.eq_nil)
    refine ⟨?_, ?_, ?_⟩
    · rw [hunf]
      rw [jsReduceAdd_eq_sum _ hsne, hperm.sum_eq, hperm.length_eq]
    · rw [hunf, hperm.length_eq]
    · obtain ⟨hmem, hdom⟩ := jsMax_spec _ hsne
      refine ⟨jsMax (ws.insertionSort (· ≤ ·)), hperm.mem_iff.mp hmem, ?_, ?_⟩
      · rw [hunf]
      · intro w hw
        exact hdom w (hperm.mem_iff.mpr hw)

/-- Witness for C7 at concrete inputs: the empty list yields all zeros, and
a single completed ticket with a ten-minute wait yields average 10. -/
theorem wait_time_stats_spec_witness :
    calculateWaitTimeStats [] = ⟨0, 0, 0⟩ ∧
    (calculateWaitTimeStats [⟨1, 0, 2, some 0, some 600000⟩]).avgWaitTime =
      round (((([⟨1, 0, 2, some 0, some 600000⟩] : List Ticket).filter fun t =>
        t.status == statusCompleted && t.createdAt.isSome && t.completedAt.isSome).map
          waitMinutes).sum /
        ((([⟨1, 0, 2, some 0, some 600000⟩] : List Ticket).filter fun t =>
          t.status == statusCompleted && t.createdAt.isSome && t.completedAt.isSome).map
            waitMinutes).length) :=
  ⟨(wait_time_stats_spec []).1 (by decide),
   ((wait_time_stats_spec [⟨1, 0, 2, some 0, some 600000⟩]).2.1 _ rfl (by decide)).1⟩

/-! ## Priority queue: binary max-heap over tickets -/

namespace PriorityQueue

/-- js bubbleUp(index): while the index has a parent with smaller priority,
swap with the parent and continue there.  The structural fuel equals the
starting index; the loop moves strictly towards the root, so the fuel never
runs out before the loop exits on index 0. -/
def bubbleUpAux : Nat → Array Ticket → Nat → Array Ticket
  | 0, heap, _ => heap
  | fuel + 1, heap, index =>
    if h : 0 < index ∧ index < heap.size then
      have hp : (index - 1) / 2 < heap.size := by omega
      if (heap[(index - 1) / 2]).priority ≥ (heap[index]).priority then heap
      else bubbleUpAux fuel (heap.swap ⟨(index - 1) / 2, hp⟩ ⟨index, h.2⟩) ((index - 1) / 2)
    else heap

def bubbleUp (heap : Array Ticket) (index : Nat) : Array Ticket :=
  bubbleUpAux index heap index

/-- js insert(ticket): push then bubbleUp from the last position. -/
def insert (heap : Array Ticket) (ticket : Ticket) : Array Ticket :=
  bubbleUp (heap.push ticket) ((heap.push ticket).size - 1)

/-- One branch of the largest-child selection in bubbleDown: take the
candidate index when it is in bounds and strictly larger, else keep the
current largest. -/
def pickLarger (heap : Array Ticket) (current cand : Nat) : Nat :=
  if h : cand < heap.size ∧ current < heap.size then
    if (heap[cand]).priority > (heap[current]).priority then cand else current
  else current

theorem pickLarger_lt {heap : Array Ticket} {current : Nat} (cand : Nat)
    (hcur : current < heap.size) : pickLarger heap current cand < heap.size := by
  unfold pickLarger
  split_ifs with h1 h2
  · exact h1.1
  · exact hcur
  · exact hcur

/-- The `largest` selection of one bubbleDown iteration: first compare the
left child against the index, then the right child against the winner. -/
def largestIdx (heap : Array Ticket) (index : Nat) : Nat :=
  pickLarger heap (pickLarger heap index (2 * index + 1)) (2 * index + 2)

theorem largestIdx_lt {heap : Array Ticket} {index : Nat} (hidx : index < heap.size) :
    largestIdx heap index < heap.size :=
  pickLarger_lt _ (pickLarger_lt _ hidx)

/-- js bubbleDown(index): pick the largest among the node and its children;
stop when the node is the largest, otherwise swap and continue at the
child.  The structural fuel is the number of positions below the index;
the loop moves strictly towards the leaves. -/
def bubbleDownAux : Nat → Array Ticket → Nat → Array Ticket
  | 0, heap, _ => heap
  | fuel + 1, heap, index =>
    if hidx : index < heap.size then
      if largestIdx heap index = index then heap
      else bubbleDownAux fuel
        (heap.swap ⟨index, hidx⟩ ⟨largestIdx heap index, largestIdx_lt hidx⟩)
        (largestIdx heap index)
    else heap

def bubbleDown (heap : Array Ticket) (index : Nat) : Array Ticket :=
  bubbleDownAux (heap.size - index) heap index

/-- js extractMax(): null on the empty heap; otherwise remove the root,
move the last element to the root, shrink, and sift it down (only when
entries remain). -/
def extractMax (heap : Array Ticket) : Option Ticket × Array Ticket :=
  if h : heap.size = 0 then (none, heap)
  else
    have h0 : 0 < heap.size := Nat.pos_of_ne_zero h
    let max := heap[0]
    let rest := (heap.set ⟨0, h0⟩ (heap[heap.size - 1])).pop
    (some max, if 0 < rest.size then bubbleDown rest 0 else rest)

/-- Priority at an index, 0 out of bounds; only in-bounds values matter. -/
def priAt (heap : Array Ticket) (i : Nat) : Int :=
  if h : i < heap.size then (heap[i]).priority else 0

/-- c is a child index of p in the implicit binary tree. -/
def isChild (c p : Nat) : Prop :=
  c = 2 * p + 1 ∨ c = 2 * p + 2

/-- The in-bounds part of the heap order between a parent and a child slot. -/
def heapLe (heap : Array Ticket) (p c : Nat) : Prop :=
  c < heap.size → priAt heap c ≤ priAt heap p

/-- Proof-friendly heap property over plain indices. -/
def MaxHeap (heap : Array Ticket) : Prop :=
  ∀ p c, isChild c p → heapLe heap p c

/-- Claim-facing heap property: every parent dominates each of its in-bounds
children; decidable, quantifying over positions of the array. -/
def maxHeapProp (heap : Array Ticket) : Prop :=
  ∀ p c : Fin heap.size, (c.val = 2 * p.val + 1 ∨ c.val = 2 * p.val + 2) →
    (heap.get c).priority ≤ (heap.get p).priority

instance (heap : Array Ticket) : Decidable (maxHeapProp heap) := by
  unfold maxHeapProp
  infer_instance

theorem priAt_eq {heap : Array Ticket} {i : Nat} (h : i < heap.size) :
    priAt heap i = (heap[i]).priority := dif_pos h

theorem maxHeapProp_iff (heap : Array Ticket) : maxHeapProp heap ↔ MaxHeap heap := by
  constructor
  · intro h p c hchild hc
    have hp : p < heap.size := lt_trans (by rcases hchild with h1 | h1 <;> omega) hc
    rw [priAt_eq hc, priAt_eq hp]
    exact h ⟨p, hp⟩ ⟨c, hc⟩ hchild
  · intro h p c hchild
    have := h p.val c.val hchild c.isLt
    rw [priAt_eq c.isLt, priAt_eq p.isLt] at this
    exact this

theorem isChild_parent {c : Nat} (hc : 0 < c) : isChild c ((c - 1) / 2) := by
  unfold isChild
  omega

theorem isChild_lt {c p : Nat} (h : isChild c p) : p < c := by
  rcases h with h | h <;> omega

theorem isChild_parent_eq {c p : Nat} (h : isChild c p) : (c - 1) / 2 = p := by
  rcases h with h | h <;> omega

theorem isChild_pos {c p : Nat} (h : isChild c p) : 0 < c := by
  rcases h with h | h <;> omega

/-- Values after a swap, in priAt form. -/
theorem priAt_swap (heap : Array Ticket) (i j : Fin heap.size) (k : Nat) :
    priAt (heap.swap i j) k =
      if k = i.val then priAt heap j.val
      else if k = j.val then priAt heap i.val else priAt heap k := by
  by_cases hk : k < heap.size
  · have hk' : k < (heap.swap i j).size := by rw [Array.size_swap]; exact hk
    rw [priAt_eq hk', Array.getElem_swap']
    by_cases h1 : k = i.val
    · simp only [if_pos h1]
      rw [priAt_eq j.isLt]
      rfl
    · rw [if_neg h1, if_neg h1]
      by_cases h2 : k = j.val
      · simp only [if_pos h2]
        rw [priAt_eq i.isLt]
        rfl
      · rw [if_neg h2, if_neg h2, priAt_eq hk]
  · have h1 : ¬ (k = i.val) := fun he => hk (he ▸ i.isLt)
    have h2 : ¬ (k = j.val) := fun he => hk (he ▸ j.isLt)
    rw [if_neg h1, if_neg h2]
    have hk' : ¬ (k < (heap.swap i j).size) := by rw [Array.size_swap]; exact hk
    unfold priAt
    rw [dif_neg hk, dif_neg hk']

theorem pickLarger_cases (heap : Array Ticket) (current cand : Nat) :
    pickLarger heap current cand = current ∨ pickLarger heap current cand = cand := by
  unfold pickLarger
  split_ifs
  · exact Or.inr rfl
  · exact Or.inl rfl
  · exact Or.inl rfl

theorem pickLarger_ne (heap : Array Ticket) (current cand : Nat)
    (h : pickLarger heap current cand ≠ current) :
    pickLarger heap current cand = cand ∧ cand < heap.size ∧ current < heap.size ∧
      priAt heap current < priAt heap cand := by
  unfold pickLarger at h ⊢
  split_ifs at h ⊢ with h1 h2
  · exact ⟨rfl, h1.1, h1.2, by rw [priAt_eq h1.1, priAt_eq h1.2]; exact h2⟩
  · exact absurd rfl h
  · exact absurd rfl h

theorem pickLarger_dominates_cand (heap : Array Ticket) (current cand : Nat)
    (hcur : current < heap.size) (hcand : cand < heap.size) :
    priAt heap cand ≤ priAt heap (pickLarger heap current cand) := by
  unfold pickLarger
  split_ifs with h1 h2
  · exact le_refl _
  · rw [priAt_eq hcand, priAt_eq hcur]
    exact le_of_not_lt h2
  · exact absurd ⟨hcand, hcur⟩ h1

theorem pickLarger_dominates_cur (heap : Array Ticket) (current cand : Nat)
    (hcur : current < heap.size) :
    priAt heap current ≤ priAt heap (pickLarger heap current cand) := by
  unfold pickLarger
  split_ifs with h1 h2
  · rw [priAt_eq h1.1, priAt_eq h1.2]
    exact le_of_lt h2
  · exact le_refl _
  · exact le_refl _

end PriorityQueue

namespace PriorityQueue

/-- Sift-up invariant: if the heap order holds everywhere except possibly at
the pair (parent index, index), and the parent of index already dominates
the children of index, then the sift-up restores the full heap order. -/
theorem bubbleUpAux_maxHeap :
    ∀ (fuel : Nat) (heap : Array Ticket) (index : Nat),
      index ≤ fuel → index < heap.size →
      (∀ p c, isChild c p → c ≠ index → heapLe heap p c) →
      (∀ c, isChild c index → heapLe heap ((index - 1) / 2) c) →
      MaxHeap (bubbleUpAux fuel heap index) := by
  intro fuel
  induction fuel with
  | zero =>
    intro heap index hf _ h1 _
    have hidx0 : index = 0 := Nat.le_zero.mp hf
    subst hidx0
    intro p c hchild
    exact h1 p c hchild (by have := isChild_pos hchild; omega)
  | succ fuel ih =>
    intro heap index hf hidx h1 h2
    simp only [bubbleUpAux]
    by_cases hpos : 0 < index
    · rw [dif_pos ⟨hpos, hidx⟩]
      set P := (index - 1) / 2 with hP
      have hp : P < heap.size := by omega
      split_ifs with hcmp
      · -- parent already dominates: the full heap order holds
        intro p c hchild hc
        by_cases hci : c = index
        · subst hci
          have hpeq : p = P := by
            have h := isChild_parent_eq hchild
            omega
          subst hpeq
          rw [priAt_eq hc, priAt_eq hp]
          exact hcmp
        · exact h1 p c hchild hci hc
      · -- swap with the parent and continue there
        have hlt : priAt heap P < priAt heap index := by
          rw [priAt_eq hp, priAt_eq hidx]
          exact lt_of_not_ge hcmp
        have hv : ∀ k, priAt (heap.swap ⟨P, hp⟩ ⟨index, hidx⟩) k =
            if k = P then priAt heap index
            else if k = index then priAt heap P else priAt heap k :=
          fun k => priAt_swap heap ⟨P, hp⟩ ⟨index, hidx⟩ k
        have hPi : P ≠ index := by omega
        have h1' : ∀ p c, isChild c p → c ≠ P →
            heapLe (heap.swap ⟨P, hp⟩ ⟨index, hidx⟩) p c := by
          intro p c hchild hcP hc
          have hcsize : c < heap.size := by rwa [Array.size_swap] at hc
          rw [hv c, hv p, if_neg hcP]
          by_cases hci : c = index
          · rw [if_pos hci]
            have hpeq : p = P := by
              have h := isChild_parent_eq hchild
              omega
            rw [if_pos hpeq]
            exact hlt.le
          · rw [if_neg hci]
            by_cases hpP : p = P
            · rw [if_pos hpP]
              have h := h1 p c hchild hci hcsize
              rw [hpP] at h
              exact le_trans h hlt.le
            · rw [if_neg hpP]
              by_cases hpi : p = index
              · rw [if_pos hpi]
                exact h2 c (hpi ▸ hchild) hcsize
              · rw [if_neg hpi]
                exact h1 p c hchild hci hcsize
        have h2' : ∀ c, isChild c P →
            heapLe (heap.swap ⟨P, hp⟩ ⟨index, hidx⟩) ((P - 1) / 2) c := by
          intro c hchild hc
          have hcsize : c < heap.size := by rwa [Array.size_swap] at hc
          have hcP : c ≠ P := by have := isChild_lt hchild; omega
          rw [hv c, hv ((P - 1) / 2), if_neg hcP]
          by_cases hgpP : (P - 1) / 2 = P
          · rw [if_pos hgpP]
            by_cases hci : c = index
            · rw [if_pos hci]
              exact hlt.le
            · rw [if_neg hci]
              exact le_trans (h1 P c hchild hci hcsize) hlt.le
          · have hgpi : (P - 1) / 2 ≠ index := by omega
            rw [if_neg hgpP, if_neg hgpi]
            have hP0 : 0 < P := by omega
            have hgp_child : isChild P ((P - 1) / 2) := isChild_parent hP0
            by_cases hci : c = index
            · rw [if_pos hci]
              exact h1 _ P hgp_child (by omega) hp
            · rw [if_neg hci]
              exact le_trans (h1 P c hchild hci hcsize) (h1 _ P hgp_child (by omega) hp)
        exact ih (heap.swap ⟨P, hp⟩ ⟨index, hidx⟩) P (by omega)
          (by rw [Array.size_swap]; exact hp) h1' h2'
    · rw [dif_neg (by omega)]
      intro p c hchild
      exact h1 p c hchild (by have := isChild_pos hchild; omega)

/-- Inserting into a max-heap preserves the heap order. -/
theorem insert_maxHeap (heap : Array Ticket) (t : Ticket) (hh : MaxHeap heap) :
    MaxHeap (insert heap t) := by
  unfold insert bubbleUp
  have hsize : (heap.push t).size = heap.size + 1 := Array.size_push heap t
  have hidx : (heap.push t).size - 1 < (heap.push t).size := by omega
  apply bubbleUpAux_maxHeap _ _ _ le_rfl hidx
  · intro p c hchild hci hc
    rw [hsize] at hc hci
    have hcs : c < heap.size := by omega
    have hps : p < heap.size := lt_trans (isChild_lt hchild) hcs
    have hvc : priAt (heap.push t) c = priAt heap c := by
      rw [priAt_eq (show c < (heap.push t).size from by omega), priAt_eq hcs]
      rw [Array.getElem_push_lt heap t c hcs]
    have hvp : priAt (heap.push t) p = priAt heap p := by
      rw [priAt_eq (show p < (heap.push t).size from by omega), priAt_eq hps]
      rw [Array.getElem_push_lt heap t p hps]
    rw [hvc, hvp]
    exact hh p c hchild hcs
  · intro c hchild hc
    have := isChild_lt hchild
    rw [hsize] at hc
    omega

end PriorityQueue

namespace PriorityQueue

theorem largestIdx_child_or_self (heap : Array Ticket) (index : Nat) :
    largestIdx heap index = index ∨ isChild (largestIdx heap index) index := by
  unfold largestIdx
  rcases pickLarger_cases heap (pickLarger heap index (2 * index + 1)) (2 * index + 2) with h | h
  · rw [h]
    rcases pickLarger_cases heap index (2 * index + 1) with h1 | h1
    · rw [h1]
      exact Or.inl rfl
    · rw [h1]
      exact Or.inr (Or.inl rfl)
  · rw [h]
    exact Or.inr (Or.inr rfl)

/-- Both children (when in bounds) are dominated by the selected largest. -/
theorem largestIdx_dominates (heap : Array Ticket) (index : Nat) (hidx : index < heap.size) :
    ∀ c, isChild c index → c < heap.size →
      priAt heap c ≤ priAt heap (largestIdx heap index) := by
  intro c hchild hcs
  unfold largestIdx
  have hL1size : pickLarger heap index (2 * index + 1) < heap.size := pickLarger_lt _ hidx
  rcases hchild with h | h
  · subst h
    exact le_trans (pickLarger_dominates_cand heap index _ hidx hcs)
      (pickLarger_dominates_cur heap _ _ hL1size)
  · subst h
    exact pickLarger_dominates_cand heap _ _ hL1size hcs

/-- When the selection moves off the index, the selected child is strictly
larger than the index. -/
theorem largestIdx_strict (heap : Array Ticket) (index : Nat) (hidx : index < heap.size)
    (h : largestIdx heap index ≠ index) :
    priAt heap index < priAt heap (largestIdx heap index) := by
  unfold largestIdx at h ⊢
  rcases pickLarger_cases heap (pickLarger heap index (2 * index + 1)) (2 * index + 2) with
    hc | hc
  · rw [hc] at h ⊢
    obtain ⟨heq, _, _, hlt⟩ := pickLarger_ne heap index (2 * index + 1) h
    rw [heq]
    exact hlt
  · rw [hc]
    have hne : pickLarger heap (pickLarger heap index (2 * index + 1)) (2 * index + 2) ≠
        pickLarger heap index (2 * index + 1) := by
      rw [hc]
      rcases pickLarger_cases heap index (2 * index + 1) with h1 | h1
      · rw [h1]
        omega
      · rw [h1]
        omega
    obtain ⟨_, _, _, hlt⟩ := pickLarger_ne heap _ _ hne
    exact lt_of_le_of_lt (pickLarger_dominates_cur heap index _ hidx) hlt

/-- Sift-down invariant: if the heap order holds everywhere except possibly
at the pairs whose parent is the index, and the parent of the index (when
the index is not the root) already dominates the children of the index,
the sift-down restores the full heap order. -/
theorem bubbleDownAux_maxHeap :
    ∀ (fuel : Nat) (heap : Array Ticket) (index : Nat),
      heap.size ≤ index + fuel →
      (∀ p c, isChild c p → p ≠ index → heapLe heap p c) →
      (0 < index → ∀ c, isChild c index → heapLe heap ((index - 1) / 2) c) →
      MaxHeap (bubbleDownAux fuel heap index) := by
  intro fuel
  induction fuel with
  | zero =>
    intro heap index hf h1 _
    simp only [bubbleDownAux]
    intro p c hchild hc
    by_cases hpi : p = index
    · subst hpi
      exact absurd hc (by have := isChild_lt hchild; omega)
    · exact h1 p c hchild hpi hc
  | succ fuel ih =>
    intro heap index hf h1 h2
    simp only [bubbleDownAux]
    by_cases hidx : index < heap.size
    · rw [dif_pos hidx]
      split_ifs with hLi
      · -- the index already dominates both children: full heap order
        intro p c hchild hc
        by_cases hpi : p = index
        · subst hpi
          have hdom := largestIdx_dominates heap p hidx c hchild hc
          rw [hLi] at hdom
          exact hdom
        · exact h1 p c hchild hpi hc
      · -- swap with the larger child and continue there
        have hchildL : isChild (largestIdx heap index) index :=
          (largestIdx_child_or_self heap index).resolve_left hLi
        have hLsize : largestIdx heap index < heap.size := largestIdx_lt hidx
        have hiL : index < largestIdx heap index := isChild_lt hchildL
        have hstrict : priAt heap index < priAt heap (largestIdx heap index) :=
          largestIdx_strict heap index hidx hLi
        have hv : ∀ k, priAt (heap.swap ⟨index, hidx⟩ ⟨largestIdx heap index, hLsize⟩) k =
            if k = index then priAt heap (largestIdx heap index)
            else if k = largestIdx heap index then priAt heap index else priAt heap k :=
          fun k => priAt_swap heap ⟨index, hidx⟩ ⟨largestIdx heap index, hLsize⟩ k
        have h1' : ∀ p c, isChild c p → p ≠ largestIdx heap index →
            heapLe (heap.swap ⟨index, hidx⟩ ⟨largestIdx heap index, hLsize⟩) p c := by
          intro p c hchild' hpL hc
          have hcsize : c < heap.size := by rwa [Array.size_swap] at hc
          rw [hv c, hv p]
          by_cases hpi : p = index
          · rw [if_pos hpi]
            by_cases hcL : c = largestIdx heap index
            · rw [if_neg (show c ≠ index from by omega), if_pos hcL]
              exact hstrict.le
            · rw [if_neg (show c ≠ index from by have := isChild_lt hchild'; omega),
                if_neg hcL]
              exact largestIdx_dominates heap index hidx c (hpi ▸ hchild') hcsize
          · rw [if_neg hpi, if_neg hpL]
            by_cases hci : c = index
            · rw [if_pos hci]
              have hipos : 0 < index := isChild_pos (hci ▸ hchild')
              have hpeq : (index - 1) / 2 = p := isChild_parent_eq (hci ▸ hchild')
              have h := h2 hipos (largestIdx heap index) hchildL hLsize
              rw [hpeq] at h
              exact h
            · rw [if_neg hci]
              by_cases hcL : c = largestIdx heap index
              · exfalso
                apply hpi
                have ha := isChild_parent_eq hchild'
                have hb := isChild_parent_eq hchildL
                rw [hcL] at ha
                omega
              · rw [if_neg hcL]
                exact h1 p c hchild' hpi hcsize
        have h2' : 0 < largestIdx heap index → ∀ c, isChild c (largestIdx heap index) →
            heapLe (heap.swap ⟨index, hidx⟩ ⟨largestIdx heap index, hLsize⟩)
              ((largestIdx heap index - 1) / 2) c := by
          intro _ c hchild' hc
          have hcsize : c < heap.size := by rwa [Array.size_swap] at hc
          have hparL : (largestIdx heap index - 1) / 2 = index := isChild_parent_eq hchildL
          rw [hparL, hv c, hv index,
            if_neg (show c ≠ index from by have := isChild_lt hchild'; omega),
            if_neg (show c ≠ largestIdx heap index from by
              have := isChild_lt hchild'; omega), if_pos rfl]
          exact h1 (largestIdx heap index) c hchild' (by omega) hcsize
        exact ih (heap.swap ⟨index, hidx⟩ ⟨largestIdx heap index, hLsize⟩)
          (largestIdx heap index) (by rw [Array.size_swap]; omega) h1' h2'
    · rw [dif_neg hidx]
      intro p c hchild hc
      by_cases hpi : p = index
      · subst hpi
        exact absurd hc (by have := isChild_lt hchild; omega)
      · exact h1 p c hchild hpi hc

end PriorityQueue

namespace PriorityQueue

theorem priAt_pop (heap : Array Ticket) (k : Nat) (hk : k < heap.size - 1) :
    priAt heap.pop k = priAt heap k := by
  have hk1 : k < heap.pop.size := by rw [Array.size_pop]; omega
  have hk2 : k < heap.size := by omega
  rw [priAt_eq hk1, priAt_eq hk2, Array.getElem_pop]

theorem priAt_set_ne (heap : Array Ticket) (i : Fin heap.size) (v : Ticket) (k : Nat)
    (hki : k ≠ i.val) : priAt (heap.set i v) k = priAt heap k := by
  by_cases hk : k < heap.size
  · have hk1 : k < (heap.set i v).size := by rw [Array.size_set]; exact hk
    rw [priAt_eq hk1, priAt_eq hk, Array.getElem_set]
    rw [if_neg (fun he => hki he.symm)]
  · have hk1 : ¬ (k < (heap.set i v).size) := by rw [Array.size_set]; exact hk
    unfold priAt
    rw [dif_neg hk, dif_neg hk1]

/-- Removing the root (move last to the root, shrink, sift down) preserves
the heap order. -/
theorem extractMax_maxHeap (heap : Array Ticket) (hh : MaxHeap heap) :
    MaxHeap (extractMax heap).2 := by
  unfold extractMax
  by_cases h : heap.size = 0
  · rw [dif_pos h]
    exact hh
  · rw [dif_neg h]
    dsimp only
    have h0 : 0 < heap.size := Nat.pos_of_ne_zero h
    set rest := (heap.set ⟨0, h0⟩ (heap[heap.size - 1])).pop with hrest
    have hsize : rest.size = heap.size - 1 := by
      rw [hrest, Array.size_pop, Array.size_set]
    have hval : ∀ k, k ≠ 0 → k < heap.size - 1 → priAt rest k = priAt heap k := by
      intro k hk0 hk
      rw [hrest, priAt_pop _ k (by rw [Array.size_set]; omega)]
      exact priAt_set_ne heap ⟨0, h0⟩ _ k hk0
    have h1 : ∀ p c, isChild c p → p ≠ 0 → heapLe rest p c := by
      intro p c hchild hp0 hc
      rw [hsize] at hc
      have hpc : p < c := isChild_lt hchild
      have hcs : c < heap.size := by omega
      rw [hval c (by have := isChild_pos hchild; omega) hc, hval p hp0 (by omega)]
      exact hh p c hchild hcs
    split_ifs with hpos
    · unfold bubbleDown
      apply bubbleDownAux_maxHeap _ rest 0 (by omega) h1
      intro habs
      exact absurd habs (lt_irrefl 0)
    · intro p c hchild hc
      by_cases hp0 : p = 0
      · exact absurd hc (by omega)
      · exact h1 p c hchild hp0 hc

/-- In a max-heap, the root dominates every position. -/
theorem le_root (heap : Array Ticket) (hh : MaxHeap heap) :
    ∀ i, i < heap.size → priAt heap i ≤ priAt heap 0 := by
  intro i
  induction i using Nat.strong_induction_on with
  | _ i ih =>
    intro hi
    by_cases h0 : i = 0
    · subst h0
      exact le_rfl
    · have hpos : 0 < i := Nat.pos_of_ne_zero h0
      have hparent := hh _ i (isChild_parent hpos) hi
      exact le_trans hparent (ih ((i - 1) / 2) (by omega) (by omega))

/-- Replacing position i by b changes the count of each value by swapping
the contribution of the old element for that of the new one. -/
theorem count_set (l : List Ticket) :
    ∀ (i : Nat) (b : Ticket) (hi : i < l.length) (x : Ticket),
      (l.set i b).count x + (if l[i] = x then 1 else 0) =
        l.count x + (if b = x then 1 else 0) := by
  induction l with
  | nil =>
    intro i b hi x
    simp at hi
  | cons a l ih =>
    intro i b hi x
    cases i with
    | zero =>
      show ((b :: l).count x) + (if a = x then 1 else 0) =
        ((a :: l).count x) + (if b = x then 1 else 0)
      rw [List.count_cons, List.count_cons]
      by_cases hax : a = x <;> by_cases hbx : b = x <;>
        simp [hax, hbx]
    | succ i =>
      have hi2 : i < l.length := by simpa using hi
      show ((a :: l.set i b).count x) + (if l[i] = x then 1 else 0) =
        ((a :: l).count x) + (if b = x then 1 else 0)
      rw [List.count_cons, List.count_cons]
      have h := ih i b hi2 x
      split_ifs at h ⊢ <;> omega

/-- A swap of two positions permutes the list. -/
theorem set_set_swap_perm (l : List Ticket) (i j : Nat) (hi : i < l.length)
    (hj : j < l.length) :
    ((l.set i (l[j])).set j (l[i])).Perm l := by
  rw [List.perm_iff_count]
  intro x
  have hlen : (l.set i (l[j])).length = l.length := by simp
  have c1 := count_set l i (l[j]) hi x
  have c2 := count_set (l.set i (l[j])) j (l[i]) (by omega) x
  have hj2 : j < (l.set i (l[j])).length := by omega
  have hv : (l.set i (l[j]))[j] = l[j] := by
    by_cases hij : i = j
    · subst hij
      rw [List.getElem_set_self]
    · rw [List.getElem_set_ne hij]
  rw [hv] at c2
  split_ifs at c1 c2 <;> omega

theorem swap_perm (heap : Array Ticket) (i j : Fin heap.size) :
    ((heap.swap i j).toList).Perm heap.toList := by
  rw [Array.toList_swap]
  exact set_set_swap_perm heap.toList i.val j.val (by simpa using i.isLt)
    (by simpa using j.isLt)

/-- Sifting down permutes the entries. -/
theorem bubbleDownAux_perm :
    ∀ (fuel : Nat) (heap : Array Ticket) (index : Nat),
      ((bubbleDownAux fuel heap index).toList).Perm heap.toList := by
  intro fuel
  induction fuel with
  | zero =>
    intro heap index
    exact List.Perm.refl _
  | succ fuel ih =>
    intro heap index
    simp only [bubbleDownAux]
    by_cases hidx : index < heap.size
    · rw [dif_pos hidx]
      split_ifs with hLi
      · exact List.Perm.refl _
      · exact (ih _ _).trans
          (swap_perm heap ⟨index, hidx⟩ ⟨largestIdx heap index, largestIdx_lt hidx⟩)
    · rw [dif_neg hidx]

/-- The last element in front of the list with its last position dropped is
a permutation of the list. -/
theorem getLast_cons_dropLast_perm (l : List Ticket) (h : l ≠ []) :
    (l.getLast h :: l.dropLast).Perm l := by
  conv_rhs => rw [← List.dropLast_concat_getLast h]
  exact (List.perm_append_singleton _ _).symm

/-- Writing the last element over the head and dropping the last slot keeps,
together with the original head, the same entries. -/
theorem cons_set_last_dropLast_perm :
    ∀ (l : List Ticket) (h0 : 0 < l.length),
      ((l[0]) :: ((l.set 0 (l[l.length - 1])).dropLast)).Perm l := by
  intro l h0
  match l with
  | [] => simp at h0
  | [a] => simp
  | a :: b :: m =>
    show (a :: (((a :: b :: m)[m.length + 1] :: b :: m).dropLast)).Perm (a :: b :: m)
    have hlast : (a :: b :: m)[m.length + 1] =
        (b :: m).getLast (List.cons_ne_nil b m) := by
      rw [List.getElem_cons_succ, List.getLast_eq_getElem]
      rfl
    rw [hlast]
    rw [show ((b :: m).getLast (List.cons_ne_nil b m) :: b :: m).dropLast =
      (b :: m).getLast (List.cons_ne_nil b m) :: (b :: m).dropLast from rfl]
    exact List.Perm.cons a (getLast_cons_dropLast_perm (b :: m) (List.cons_ne_nil b m))

/-- extractMax removes exactly the returned root: putting it back in front
of the remaining entries permutes the original entries. -/
theorem extractMax_perm (heap : Array Ticket) (h0 : 0 < heap.size) :
    ((heap[0]) :: ((extractMax heap).2).toList).Perm heap.toList := by
  unfold extractMax
  rw [dif_neg (by omega)]
  dsimp only
  have hper : ∀ r : Array Ticket,
      ((if 0 < r.size then bubbleDown r 0 else r).toList).Perm r.toList := by
    intro r
    split_ifs
    · exact bubbleDownAux_perm _ r 0
    · exact List.Perm.refl _
  refine List.Perm.trans (List.Perm.cons _ (hper _)) ?_
  rw [Array.toList_pop, Array.toList_set]
  exact cons_set_last_dropLast_perm heap.toList h0

end PriorityQueue

/-! ## Claims C2 and C3 -/

/-- An operation on the queue: insert a ticket, or extractMax. -/
inductive HeapOp where
  | insert (t : Ticket)
  | extractMax

/-- Apply one queue operation to the heap array. -/
def applyOp (heap : Array Ticket) : HeapOp → Array Ticket
  | .insert t => PriorityQueue.insert heap t
  | .extractMax => (PriorityQueue.extractMax heap).2

/-- The heap array after a sequence of operations, starting from the empty
queue of the constructor. -/
def applyOps (ops : List HeapOp) : Array Ticket :=
  ops.foldl applyOp #[]

/-- Claim C2: after every sequence of insert and extractMax calls starting
from the empty queue, the heap array satisfies the max-heap property: each
parent holds a priority at least as large as each of its in-bounds
children. -/
theorem heap_property_after_operations (ops : List HeapOp) :
    PriorityQueue.maxHeapProp (applyOps ops) := by
  rw [PriorityQueue.maxHeapProp_iff]
  have hgen : ∀ (ops : List HeapOp) (h : Array Ticket), PriorityQueue.MaxHeap h →
      PriorityQueue.MaxHeap (ops.foldl applyOp h) := by
    intro ops
    induction ops with
    | nil => exact fun h hh => hh
    | cons op ops ih =>
      intro h hh
      rw [List.foldl_cons]
      apply ih
      cases op with
      | insert t => exact PriorityQueue.insert_maxHeap h t hh
      | extractMax => exact PriorityQueue.extractMax_maxHeap h hh
  apply hgen
  intro p c hchild hc
  exact absurd hc (by simp)

/-- The queue loaded with priorities [5, 1, 9, 3] for the extraction-order
example. -/
def demoHeap : Array Ticket :=
  PriorityQueue.insert (PriorityQueue.insert (PriorityQueue.insert
    (PriorityQueue.insert #[] { id := 0, priority := 5 }) { id := 1, priority := 1 })
    { id := 2, priority := 9 }) { id := 3, priority := 3 }

def demoExtract1 : Option Ticket × Array Ticket := PriorityQueue.extractMax demoHeap

def demoExtract2 : Option Ticket × Array Ticket := PriorityQueue.extractMax demoExtract1.2

def demoExtract3 : Option Ticket × Array Ticket := PriorityQueue.extractMax demoExtract2.2

def demoExtract4 : Option Ticket × Array Ticket := PriorityQueue.extractMax demoExtract3.2

def demoExtract5 : Option Ticket × Array Ticket := PriorityQueue.extractMax demoExtract4.2

/-- Claim C3: extractMax returns null exactly on the empty queue; on a heap
with the max-heap property it returns the root, which dominates every
stored ticket, and removes exactly that entry (the returned ticket put
back in front of the remaining entries is a permutation of the original
entries); extracting repeatedly after inserting priorities [5, 1, 9, 3]
yields 9, 5, 3, 1 and then the sentinel. -/
theorem extractMax_spec (heap : Array Ticket) (hh : PriorityQueue.maxHeapProp heap) :
    ((PriorityQueue.extractMax heap).1 = none ↔ heap.size = 0) ∧
    (∀ h0 : 0 < heap.size,
      (PriorityQueue.extractMax heap).1 = some (heap[0]) ∧
      (∀ u ∈ heap.toList, u.priority ≤ (heap[0]).priority) ∧
      ((heap[0]) :: ((PriorityQueue.extractMax heap).2).toList).Perm heap.toList) ∧
    (demoExtract1.1.map Ticket.priority = some 9 ∧
     demoExtract2.1.map Ticket.priority = some 5 ∧
     demoExtract3.1.map Ticket.priority = some 3 ∧
     demoExtract4.1.map Ticket.priority = some 1 ∧
     demoExtract5.1 = none) := by
  have hmax := (PriorityQueue.maxHeapProp_iff heap).mp hh
  refine ⟨⟨?_, ?_⟩, ?_, ?_⟩
  · intro hnone
    by_contra hsz
    unfold PriorityQueue.extractMax at hnone
    rw [dif_neg hsz] at hnone
    exact absurd hnone (by simp)
  · intro hsz
    unfold PriorityQueue.extractMax
    rw [dif_pos hsz]
  · intro h0
    refine ⟨?_, ?_, PriorityQueue.extractMax_perm heap h0⟩
    · unfold PriorityQueue.extractMax
      rw [dif_neg (by omega)]
    · intro u hu
      obtain ⟨i, hi, hiu⟩ := List.mem_iff_getElem.mp hu
      have hi2 : i < heap.size := by simpa using hi
      have hle := PriorityQueue.le_root heap hmax i hi2
      rw [PriorityQueue.priAt_eq hi2, PriorityQueue.priAt_eq h0] at hle
      rw [← hiu]
      exact hle
  · exact ⟨by decide, by decide, by decide, by decide, by decide⟩

/-- Witness for C3 at a two-element max-heap with priorities 9 and 5. -/
theorem extractMax_spec_witness :
    (PriorityQueue.extractMax
        #[Ticket.mk 0 9 0 none none, Ticket.mk 1 5 0 none none]).1 =
      some ((#[Ticket.mk 0 9 0 none none,
        Ticket.mk 1 5 0 none none] : Array Ticket)[0]) :=
  ((extractMax_spec #[Ticket.mk 0 9 0 none none, Ticket.mk 1 5 0 none none]
    (by decide)).2.1 (by decide)).1
